import Mathlib

/-!
# A shallow embedding of the `Database<T>` class (exercise-15 `database.ts`)

The embedded program is a small log-backed document store:

* records are appended to a text log, one line per record, a one-character
  tag (`'E'` live, `'D'` tombstone) followed by the JSON encoding of the
  record;
* `find` reads the log, keeps the live lines, decodes them and filters them
  through a recursive query matcher, then optionally sorts and projects;
* `insert` appends one tagged line;
* `delete` reads all live records, truncates the file and re-appends every
  record, tombstoning the ones that matched the delete query.

JavaScript strings are modelled as `List Char` (a string is a sequence of
code units; all inputs of interest here are ASCII, where Lean's
`Char.toLower` agrees with `String.prototype.toLowerCase`).  JavaScript
scalar values are modelled by `Value`: an integer, a string, or
`undefined` (the result of reading an absent property).  Floating point
numbers are outside the model.  Fallible steps (file reads, `JSON.parse`)
are modelled with `Except String`.
-/

/-- A JavaScript string: a sequence of characters. -/
abbrev Str := List Char

/-- A property / field name of a record or query object. -/
abbrev Key := String

/-- A JavaScript scalar value as stored in a record field.  `vUndef` is the
result of reading an absent property. -/
inductive Value where
  | vInt : Int → Value
  | vStr : Str → Value
  | vUndef : Value
deriving DecidableEq

/-- A record (a `T` of the generic class): a JSON object, i.e. an ordered
association list from field names to values. -/
abbrev Rec := List (Key × Value)

/-- `record[key]`: property access; absent keys read as `undefined`. -/
def getField (r : Rec) (k : Key) : Value := (r.lookup k).getD Value.vUndef

/-- JavaScript `<` on strings: lexicographic comparison of code units, a
proper prefix being smaller. -/
def ltStr : Str → Str → Bool
  | [], [] => false
  | [], _ :: _ => true
  | _ :: _, [] => false
  | a :: as, b :: bs =>
    if a.toNat < b.toNat then true
    else if b.toNat < a.toNat then false
    else ltStr as bs

/-- JavaScript `===` on scalar values: no coercion, values of different
types never compare equal, `undefined === undefined` holds. -/
def jsEq : Value → Value → Bool
  | .vInt a, .vInt b => a == b
  | .vStr a, .vStr b => a == b
  | .vUndef, .vUndef => true
  | _, _ => false

/-- JavaScript `<` on scalar values of equal type.  Comparisons involving
`undefined`, and comparisons of an integer with a string, are `false`
(the spec declares cross-type comparisons undefined behaviour; in this
model they are never "less than", matching e.g. `5 < "a"`). -/
def jsLt : Value → Value → Bool
  | .vInt a, .vInt b => a < b
  | .vStr a, .vStr b => ltStr a b
  | _, _ => false

/-- JavaScript `>` on scalar values: `a > b` holds exactly when `b < a`
for same-type scalars. -/
def jsGt (a b : Value) : Bool := jsLt b a

/-- `Condition<T>`: `{$eq: v}`, `{$gt: v}`, `{$lt: v}` or `{$in: vs}`. -/
inductive Condition where
  | eqC : Value → Condition
  | gtC : Value → Condition
  | ltC : Value → Condition
  | inC : List Value → Condition
deriving DecidableEq

/-- `Query<T>` as it is discriminated at run time by `matchesQuery`'s
`'$and' in query` / `'$or' in query` / `'$text' in query` chain: an object
that may carry a `$and` list, a `$or` list, a `$text` string, and plain
property/condition pairs.  Keeping all four components lets the embedding
express the run-time priority order of the checks. -/
inductive RawQuery where
  | mk : Option (List RawQuery) → Option (List RawQuery) → Option Str →
      List (Key × Condition) → RawQuery

/-- The `$and` component of a query object. -/
def RawQuery.andPart : RawQuery → Option (List RawQuery)
  | .mk a _ _ _ => a

/-- The `$or` component of a query object. -/
def RawQuery.orPart : RawQuery → Option (List RawQuery)
  | .mk _ o _ _ => o

/-- The `$text` component of a query object. -/
def RawQuery.textPart : RawQuery → Option Str
  | .mk _ _ t _ => t

/-- The plain property/condition pairs of a query object. -/
def RawQuery.props : RawQuery → List (Key × Condition)
  | .mk _ _ _ p => p

/-- `Database.matchesCondition(value, condition)`.  The `condition`
argument has type `Condition<T[keyof T]> | undefined` in the source and a
falsy (`undefined`) condition fails the match (`if (!condition) return
false`). -/
def matchesCondition (value : Value) : Option Condition → Bool
  | none => false
  | some (.eqC v) => jsEq value v
  | some (.gtC v) => jsGt value v
  | some (.ltC v) => jsLt value v
  | some (.inC vs) => vs.any fun v => jsEq v value

/-- `Database.matchesPropertyQuery(record, propertyQuery)`: every key of
the query object must satisfy its condition against the record's value for
that key. -/
def matchesPropertyQuery (r : Rec) (props : List (Key × Condition)) : Bool :=
  (props.map Prod.fst).all fun key => matchesCondition (getField r key) (props.lookup key)

/-- `s.toLowerCase().split(' ')` on a JavaScript string: lower-case every
character, then split on every single space (adjacent separators yield
empty tokens, the empty string yields one empty token — `List.splitOn`
agrees with `String.prototype.split` here). -/
def strWords (s : Str) : List Str :=
  (s.map Char.toLower).splitOn ' '

/-- The string content of a full-text field, `record[key] as any as
string`.  The source casts without conversion and then calls
`.toLowerCase()`, which is only defined when the field actually holds a
string (the spec declares non-string full-text fields undefined
behaviour); a non-string value is modelled as the empty string and every
theorem touching this branch assumes string-valued full-text fields. -/
def fieldStr : Value → Str
  | .vStr s => s
  | _ => []

/-- The `'$text' in query` branch of `matchesQuery`: tokenize every
configured full-text field of the record and the search string, lower-cased
and split on spaces; every search token must occur verbatim in the token
list of at least one field. -/
def matchesText (ftf : List Key) (r : Rec) (txt : Str) : Bool :=
  let searchableFieldWords := ftf.map fun key => strWords (fieldStr (getField r key))
  let wordsToSearch := strWords txt
  wordsToSearch.all fun x => searchableFieldWords.any fun y => y.contains x

mutual

/-- `Database.matchesQuery(record, query)`: the run-time discrimination
chain — `$and` first, then `$or`, then `$text`, and plain property queries
last.  `ftf` is the collection's `fullTextSearchFieldNames`. -/
def matchesQuery (ftf : List Key) (r : Rec) : RawQuery → Bool
  | .mk (some qs) _ _ _ => matchesAll ftf r qs
  | .mk none (some qs) _ _ => matchesAny ftf r qs
  | .mk none none (some txt) _ => matchesText ftf r txt
  | .mk none none none props => matchesPropertyQuery r props

/-- `query.$and.every(q => this.matchesQuery(record, q))`. -/
def matchesAll (ftf : List Key) (r : Rec) : List RawQuery → Bool
  | [] => true
  | q :: qs => matchesQuery ftf r q && matchesAll ftf r qs

/-- `query.$or.some(q => this.matchesQuery(record, q))`. -/
def matchesAny (ftf : List Key) (r : Rec) : List RawQuery → Bool
  | [] => false
  | q :: qs => matchesQuery ftf r q || matchesAny ftf r qs

end

/-- `Database.project(record, projectionOption)`: build a new record
holding exactly the projected keys, each with the record's value for it.
The projection option is modelled as its list of keys in object-insertion
order (all flags are `1`). -/
def project (record : Rec) (projKeys : List Key) : Rec :=
  projKeys.map fun key => (key, getField record key)

/-- The comparator closure passed to `records.sort` by `Database.sort`:
walk the sort keys in mapping-insertion order; at the first key where the
records compare unequal return `-direction` (left smaller) or `direction`
(left larger); return `0` when no listed key distinguishes them.  A sort
option is modelled as its list of `(key, direction)` pairs in
object-insertion order. -/
def cmpRecords (sortOption : List (Key × Int)) (a b : Rec) : Int :=
  match sortOption with
  | [] => 0
  | (key, dir) :: rest =>
    if jsLt (getField a key) (getField b key) then -dir
    else if jsGt (getField a key) (getField b key) then dir
    else cmpRecords rest a b

/-- One step of the stable sort: insert `x` in front of the first element
`y` that does not strictly precede it (`cmpRecords so y x < 0` fails), so
an element never jumps over one it compares equal to. -/
def sortInsert (so : List (Key × Int)) (x : Rec) : List Rec → List Rec
  | [] => [x]
  | y :: ys =>
    if cmpRecords so y x < 0 then y :: sortInsert so x ys
    else x :: y :: ys

/-- `records.sort(comparator)`: ECMAScript requires `Array.prototype.sort`
to be stable, and a stable sort consistent with a comparator is unique on
any list the comparator orders consistently; it is modelled here by a
stable insertion sort driven by `cmpRecords`. -/
def sortRecords (so : List (Key × Int)) : List Rec → List Rec
  | [] => []
  | x :: xs => sortInsert so x (sortRecords so xs)

/-- `QueryOptions<T>`: the optional sort and projection options of `find`,
each modelled as the ordered key list of the option object. -/
structure QueryOptions where
  sortOpt : Option (List (Key × Int))
  projection : Option (List Key)

/-- One line of the log file, as `getRecords` sees it after splitting on
newlines: a tag character followed by a payload that either is the JSON
encoding of a record (`good`) or fails `JSON.parse` (`bad`). -/
inductive Line where
  | good : Char → Rec → Line
  | bad : Char → Str → Line
deriving DecidableEq

/-- The tag character of a line (`x[0]` in the source). -/
def Line.tag : Line → Char
  | .good c _ => c
  | .bad c _ => c

/-- `JSON.parse` applied to the payload of a line (after the tag was
stripped): a well-formed payload decodes to its record, a malformed one
throws a `SyntaxError`. -/
def decodeLine : Line → Except String Rec
  | .good _ r => .ok r
  | .bad _ _ => .error "SyntaxError: Unexpected token in JSON"

/-- `Database.getRecords()` on the decoded line list of the file: keep the
lines whose first character is `'E'`, strip the tag and `JSON.parse` each
payload; the first parse failure rejects the whole read. -/
def getRecords (file : List Line) : Except String (List Rec) :=
  (file.filter fun l => l.tag == 'E').mapM decodeLine

/-- `Database.insert(record, asDeleted)` acting on the file contents:
append one line, tagged `'D'` when `asDeleted` and `'E'` otherwise. -/
def insertOp (file : List Line) (record : Rec) (asDeleted : Bool) : List Line :=
  file ++ [Line.good (if asDeleted then 'D' else 'E') record]

/-- `Database.find(query, options)` acting on the file contents: read all
live records, filter through `matchesQuery`, sort when a sort option is
given, project when a projection option is given. -/
def findOp (ftf : List Key) (file : List Line) (query : RawQuery)
    (options : QueryOptions) : Except String (List Rec) :=
  match getRecords file with
  | .error e => .error e
  | .ok records =>
    let records := records.filter fun x => matchesQuery ftf x query
    let records :=
      match options.sortOpt with
      | some so => sortRecords so records
      | none => records
    .ok
      (match options.projection with
      | some p => records.map fun x => project x p
      | none => records)

/-- `Database.delete(query)` acting on the file contents: read all live
records, compute `recordsToDelete`, truncate the file to empty, then
re-append every record in read order, tombstoned when it is among
`recordsToDelete` (the source tests membership with
`recordsToDelete.includes(r)` on the very objects produced by the read, so
membership is list membership here). -/
def deleteOp (ftf : List Key) (file : List Line) (query : RawQuery) :
    Except String (List Line) :=
  match getRecords file with
  | .error e => .error e
  | .ok records =>
    let recordsToDelete := records.filter fun x => matchesQuery ftf x query
    let truncated : List Line := []
    .ok (records.foldl (fun f r => insertOp f r (recordsToDelete.contains r)) truncated)

/-- `Database.getRecords()` including the outcome of the underlying
`fs.readFile`: a read error is passed to `reject` unchanged, a successful
read is decoded as in `getRecords`. -/
def getRecordsR (readOutcome : Except String (List Line)) : Except String (List Rec) :=
  match readOutcome with
  | .error e => .error e
  | .ok file => getRecords file

/-- `Database.find` including the outcome of the underlying read: the
rejected read propagates unchanged through the awaited `getRecords`. -/
def findR (ftf : List Key) (readOutcome : Except String (List Line))
    (query : RawQuery) (options : QueryOptions) : Except String (List Rec) :=
  match readOutcome with
  | .error e => .error e
  | .ok file => findOp ftf file query options

/-- `Database.delete` including the outcome of the underlying read: a
rejected read rejects the whole delete before anything is written.  The
outcome of `fs.truncate` is ignored because the source installs the
callback `() => resolve()`, which drops the error argument. -/
def deleteR (ftf : List Key) (readOutcome : Except String (List Line))
    (truncateOutcome : Except String Unit) (query : RawQuery) :
    Except String (List Line) :=
  match readOutcome with
  | .error e => .error e
  | .ok file =>
    match truncateOutcome with
    | .error _ => deleteOp ftf file query
    | .ok _ => deleteOp ftf file query

/-- The outcome `Database.insert` reports to its caller, as a function of
the outcome of the underlying `fs.appendFile`: the source installs the
callback `() => resolve()`, which ignores the error argument entirely, so
the promise resolves successfully even when the append failed. -/
def insertOutcome (appendOutcome : Except String Unit) : Except String Unit :=
  match appendOutcome with
  | .error _ => .ok ()
  | .ok _ => .ok ()

/-- The result a database operation reports: `find` yields rows, `insert`
and `delete` yield completion. -/
inductive DbOut where
  | rows : List Rec → DbOut
  | done : DbOut
deriving DecidableEq

/-- A public operation of the collection handle. -/
inductive DbOp where
  | findO : RawQuery → QueryOptions → DbOp
  | insertO : Rec → Bool → DbOp
  | deleteO : RawQuery → DbOp

/-- The sequential state machine of the collection handle: each operation
runs alone under the collection lock and maps the file contents to new
file contents plus a reported outcome.  A failed read leaves the file
unchanged. -/
def execOp (ftf : List Key) (file : List Line) : DbOp → List Line × Except String DbOut
  | .findO q opts =>
    match findOp ftf file q opts with
    | .error e => (file, .error e)
    | .ok rs => (file, .ok (.rows rs))
  | .insertO r asDeleted => (insertOp file r asDeleted, .ok .done)
  | .deleteO q =>
    match deleteOp ftf file q with
    | .error e => (file, .error e)
    | .ok file' => (file', .ok .done)

/-- Two scalar values of the same JavaScript type (both integers, both
strings, or both `undefined`): the region where the spec does not declare
comparison behaviour undefined. -/
def sameKind : Value → Value → Bool
  | .vInt _, .vInt _ => true
  | .vStr _, .vStr _ => true
  | .vUndef, .vUndef => true
  | _, _ => false

/-- Two records differ at a key when one's value is strictly below the
other's there. -/
def differAt (a b : Rec) (k : Key) : Bool :=
  jsLt (getField a k) (getField b k) || jsLt (getField b k) (getField a k)

/-- Every direction of a sort option is `1` or `-1` (the `SortOption<T>`
type allows nothing else). -/
def validDirs (so : List (Key × Int)) : Prop :=
  ∀ p ∈ so, p.2 = 1 ∨ p.2 = -1

/-- All records of the list hold same-kind values at every sort key, so
the comparator behaves as a total preorder on the list. -/
def homogKeys (so : List (Key × Int)) (rs : List Rec) : Prop :=
  ∀ p ∈ so, ∀ a ∈ rs, ∀ b ∈ rs, sameKind (getField a p.1) (getField b p.1) = true

/-- Whether a value is a string. -/
def Value.isStr : Value → Bool
  | .vStr _ => true
  | _ => false

/-- The record `{"name":"Ann","age":30}` of the spec's concrete scenario. -/
def annRec : Rec := [("name", Value.vStr "Ann".toList), ("age", Value.vInt 30)]

/-- The record `{"name":"Bob","age":25}` of the spec's concrete scenario. -/
def bobRec : Rec := [("name", Value.vStr "Bob".toList), ("age", Value.vInt 25)]

/-- The empty property query `{}`: no combinator key, no text, no fields. -/
def emptyQuery : RawQuery := RawQuery.mk none none none []

/-- `find`'s options object when no options are passed. -/
def noOptions : QueryOptions := ⟨none, none⟩

/-! ## General lemmas about the embedded definitions -/

theorem matchesAll_eq_all (ftf : List Key) (r : Rec) (qs : List RawQuery) :
    matchesAll ftf r qs = qs.all (matchesQuery ftf r) := by
  induction qs with
  | nil => rfl
  | cons q qs ih => simp [matchesAll, ih]

theorem matchesAny_eq_any (ftf : List Key) (r : Rec) (qs : List RawQuery) :
    matchesAny ftf r qs = qs.any (matchesQuery ftf r) := by
  induction qs with
  | nil => rfl
  | cons q qs ih => simp [matchesAny, ih]

theorem jsEq_refl (v : Value) : jsEq v v = true := by
  cases v <;> simp [jsEq]

theorem mapM_decode_ok {l : List Line} {rs : List Rec}
    (h : l.mapM decodeLine = Except.ok rs) : l.map decodeLine = rs.map Except.ok := by
  induction l generalizing rs with
  | nil =>
    simp only [List.mapM_nil, pure, Except.pure] at h
    cases h
    rfl
  | cons x xs ih =>
    rw [List.mapM_cons] at h
    cases hx : decodeLine x with
    | error e => rw [hx] at h; simp [Bind.bind, Except.bind] at h
    | ok r =>
      rw [hx] at h
      simp only [Bind.bind, Except.bind] at h
      cases hxs : xs.mapM decodeLine with
      | error e => rw [hxs] at h; simp at h
      | ok rs' =>
        rw [hxs] at h
        simp only [pure, Except.pure, Except.ok.injEq] at h
        cases h
        simp [List.map_cons, hx, ih hxs]

theorem emptyQuery_matches (ftf : List Key) (r : Rec) :
    matchesQuery ftf r emptyQuery = true := by
  simp [emptyQuery, matchesQuery, matchesPropertyQuery]

/-! ## C3: discrimination order of `matchesQuery`, AND / OR semantics -/

/-- C3.  `matchesQuery` discriminates the query object in the fixed
priority order `$and`, `$or`, `$text`, then property query — when `$and`
is present the other components are ignored, and so on down the chain —
and an AND-combinator matches a record iff every subquery matches it,
while an OR-combinator matches iff at least one subquery matches. -/
theorem matchesQuery_discrimination (ftf : List Key) (r : Rec) :
    (∀ qs o t p, (matchesQuery ftf r (RawQuery.mk (some qs) o t p) = true ↔
        ∀ q ∈ qs, matchesQuery ftf r q = true))
    ∧ (∀ qs t p, (matchesQuery ftf r (RawQuery.mk none (some qs) t p) = true ↔
        ∃ q ∈ qs, matchesQuery ftf r q = true))
    ∧ (∀ t p, matchesQuery ftf r (RawQuery.mk none none (some t) p) = matchesText ftf r t)
    ∧ (∀ p, matchesQuery ftf r (RawQuery.mk none none none p) = matchesPropertyQuery r p) := by
  refine ⟨fun qs o t p => ?_, fun qs t p => ?_, fun t p => rfl, fun p => rfl⟩
  · rw [matchesQuery, matchesAll_eq_all, List.all_eq_true]
  · rw [matchesQuery, matchesAny_eq_any, List.any_eq_true]

/-! ## C8: reflexivity of the `$eq` condition -/

/-- C8.  For every record `r` and field `f`, the property query
`{f: {$eq: r[f]}}` matches `r`: the `$eq` condition is reflexive. -/
theorem eq_condition_refl (ftf : List Key) (r : Rec) (f : Key) :
    matchesQuery ftf r (RawQuery.mk none none none [(f, Condition.eqC (getField r f))]) = true := by
  simp [matchesQuery, matchesPropertyQuery, List.lookup, matchesCondition, jsEq_refl]

/-! ## C4: full-text matching -/

/-- C4.  On records whose configured full-text fields hold strings, a
full-text query matches iff every whitespace-delimited, lower-cased token
of the search string occurs verbatim among the tokens of the lower-cased,
space-tokenized value of at least one configured field (a different field
may supply each token); concretely, `{$text: "alpha beta"}` matches a
record whose full-text field is `"Alpha Gamma Beta"` and does not match
one whose field is `"Alphabeta"`. -/
theorem fulltext_token_semantics :
    (∀ (ftf : List Key) (r : Rec) (txt : Str),
      (∀ k ∈ ftf, (getField r k).isStr = true) →
      (matchesQuery ftf r (RawQuery.mk none none (some txt) []) = true ↔
        ∀ w ∈ strWords txt, ∃ k ∈ ftf, w ∈ strWords (fieldStr (getField r k))))
    ∧ matchesQuery ["title"] [("title", Value.vStr "Alpha Gamma Beta".toList)]
        (RawQuery.mk none none (some "alpha beta".toList) []) = true
    ∧ matchesQuery ["title"] [("title", Value.vStr "Alphabeta".toList)]
        (RawQuery.mk none none (some "alpha beta".toList) []) = false := by
  refine ⟨fun ftf r txt _ => ?_, by decide, by decide⟩
  rw [matchesQuery, matchesText]
  simp only [List.all_eq_true, List.any_eq_true, List.mem_map]
  constructor
  · intro h w hw
    rcases h w hw with ⟨y, ⟨k, hk, hy⟩, hcy⟩
    exact ⟨k, hk, by simpa [hy] using hcy⟩
  · intro h w hw
    rcases h w hw with ⟨k, hk, hwk⟩
    exact ⟨strWords (fieldStr (getField r k)), ⟨k, hk, rfl⟩, by simpa using hwk⟩

/-- Witness for C4: the token-semantics equivalence applied to the
"Alpha Gamma Beta" record of the spec's example. -/
theorem fulltext_token_semantics_witness :
    matchesQuery ["title"] [("title", Value.vStr "Alpha Gamma Beta".toList)]
        (RawQuery.mk none none (some "alpha beta".toList) []) = true ↔
      ∀ w ∈ strWords "alpha beta".toList, ∃ k ∈ (["title"] : List Key),
        w ∈ strWords (fieldStr (getField [("title", Value.vStr "Alpha Gamma Beta".toList)] k)) :=
  fulltext_token_semantics.1 ["title"] [("title", Value.vStr "Alpha Gamma Beta".toList)]
    "alpha beta".toList (by decide)

/-! ## C5: propagation of storage failures -/

/-- C5 counterexample.  An `fs.appendFile` failure (e.g. `EACCES`) is not
surfaced to the caller of `insert`: the promise callback `() => resolve()`
drops the error argument, so `insert` resolves successfully instead of
rejecting. -/
theorem insert_swallows_append_error :
    insertOutcome (Except.error "EACCES") = Except.ok ()
    ∧ insertOutcome (Except.error "EACCES") ≠ Except.error "EACCES" :=
  ⟨rfl, fun h => Except.noConfusion h⟩

/-- C5 amended.  A failure of the underlying file read is surfaced
unchanged as the rejection of `find` and of `delete`, with no retry and no
local recovery; but a failure of the underlying append is not surfaced by
`insert`, which always reports success. -/
theorem storage_error_propagation (ftf : List Key) (e : String) (q : RawQuery)
    (opts : QueryOptions) (trunc : Except String Unit) :
    findR ftf (Except.error e) q opts = Except.error e
    ∧ deleteR ftf (Except.error e) trunc q = Except.error e
    ∧ (∀ appendOutcome, insertOutcome appendOutcome = Except.ok ()) := by
  refine ⟨rfl, rfl, fun ap => ?_⟩
  cases ap <;> rfl

/-! ## C10: `find` never modifies the backing log -/

/-- C10.  Executing `find` with any query and any combination of sort and
projection options leaves the log contents unchanged, and reports exactly
the rows computed in memory by the find pipeline. -/
theorem find_preserves_log (ftf : List Key) (file : List Line) (q : RawQuery)
    (opts : QueryOptions) :
    (execOp ftf file (DbOp.findO q opts)).1 = file
    ∧ (execOp ftf file (DbOp.findO q opts)).2 =
        (match findOp ftf file q opts with
          | .error e => .error e
          | .ok rs => .ok (DbOut.rows rs)) := by
  cases h : findOp ftf file q opts <;> simp [execOp, h]

/-! ## C6: a corrupt live line fails the whole read -/

/-- C6.  If any live-tagged line of the log fails to decode, the whole
read errors out; and whenever the read succeeds, every live line
contributed exactly its decoded record, in order — no per-line
skip-and-continue, no partial result. -/
theorem corrupt_line_fails_read (file : List Line) :
    (∀ s, Line.bad 'E' s ∈ file → ∃ e, getRecords file = Except.error e)
    ∧ (∀ records, getRecords file = Except.ok records →
        (file.filter fun l => l.tag == 'E').map decodeLine = records.map Except.ok) := by
  constructor
  · intro s hs
    cases h : getRecords file with
    | error e => exact ⟨e, rfl⟩
    | ok rs =>
      exfalso
      have hm : (file.filter fun l => l.tag == 'E').map decodeLine = rs.map Except.ok :=
        mapM_decode_ok h
      have hmem : Line.bad 'E' s ∈ file.filter fun l => l.tag == 'E' :=
        List.mem_filter.mpr ⟨hs, by simp [Line.tag]⟩
      have hbad : decodeLine (Line.bad 'E' s) ∈ rs.map Except.ok :=
        hm ▸ List.mem_map_of_mem _ hmem
      simp [decodeLine] at hbad
  · intro records h
    exact mapM_decode_ok h

/-- Witness for C6: a log whose second live line is corrupt fails the
whole read; a log of two well-formed lines (one tombstoned) reads back
exactly its live record. -/
theorem corrupt_line_fails_read_witness :
    (∃ e, getRecords [Line.good 'E' annRec, Line.bad 'E' "oops".toList] = Except.error e)
    ∧ ([Line.good 'E' annRec, Line.good 'D' bobRec].filter fun l => l.tag == 'E').map decodeLine
        = [annRec].map Except.ok :=
  ⟨(corrupt_line_fails_read _).1 "oops".toList (by decide),
   (corrupt_line_fails_read _).2 [annRec] rfl⟩

/-! ## Log-rewrite algebra shared by C1, C2, C7 -/

theorem foldl_insertOp (g : Rec → Bool) (records : List Rec) :
    ∀ acc : List Line,
      records.foldl (fun f r => insertOp f r (g r)) acc
        = acc ++ records.map (fun r => Line.good (if g r then 'D' else 'E') r) := by
  induction records with
  | nil => intro acc; simp
  | cons r rs ih =>
    intro acc
    rw [List.foldl_cons, ih]
    simp [insertOp, List.append_assoc]

theorem getRecords_cons_live (r : Rec) (ls : List Line) :
    getRecords (Line.good 'E' r :: ls)
      = match getRecords ls with
        | .error e => .error e
        | .ok rs => .ok (r :: rs) := by
  simp only [getRecords, List.filter_cons]
  rw [if_pos (by rfl)]
  rw [List.mapM_cons]
  cases h : (List.filter (fun l => l.tag == 'E') ls).mapM decodeLine <;>
    simp [decodeLine, h, Bind.bind, Except.bind, pure, Except.pure]

theorem getRecords_cons_dead {c : Char} (hc : (c == 'E') = false) (r : Rec) (ls : List Line) :
    getRecords (Line.good c r :: ls) = getRecords ls := by
  simp only [getRecords, List.filter_cons, Line.tag, hc]
  rfl

theorem contains_filter_of_mem {p : Rec → Bool} {l : List Rec} {r : Rec} (h : r ∈ l) :
    (l.filter p).contains r = p r := by
  rcases hp : p r with _ | _ <;> simp [List.mem_filter, hp, h]

theorem deleteOp_eq {ftf : List Key} {file : List Line} {q : RawQuery} {records : List Rec}
    (h : getRecords file = Except.ok records) :
    deleteOp ftf file q
      = Except.ok (records.map fun r => Line.good (if matchesQuery ftf r q then 'D' else 'E') r) := by
  have h1 : deleteOp ftf file q
      = Except.ok (records.foldl
          (fun f r => insertOp f r ((records.filter fun x => matchesQuery ftf x q).contains r))
          []) := by
    simp [deleteOp, h]
  rw [h1, foldl_insertOp]
  congr 1
  simp only [List.nil_append]
  apply List.map_congr_left
  intro r hr
  rw [contains_filter_of_mem hr]

theorem getRecords_rewrite (ftf : List Key) (q : RawQuery) (records : List Rec) :
    getRecords (records.map fun r => Line.good (if matchesQuery ftf r q then 'D' else 'E') r)
      = Except.ok (records.filter fun r => !(matchesQuery ftf r q)) := by
  induction records with
  | nil => rfl
  | cons r rs ih =>
    rcases hm : matchesQuery ftf r q with _ | _
    · have he : (if matchesQuery ftf r q = true then 'D' else 'E') = 'E' := by rw [hm]; rfl
      rw [List.map_cons, he, getRecords_cons_live, ih, List.filter_cons]
      simp [hm]
    · have hd : (if matchesQuery ftf r q = true then 'D' else 'E') = 'D' := by rw [hm]; rfl
      rw [List.map_cons, hd, getRecords_cons_dead (by decide), ih, List.filter_cons]
      simp [hm]

theorem getRecords_append_live {file : List Line} {records : List Rec} (r : Rec)
    (h : getRecords file = Except.ok records) :
    getRecords (file ++ [Line.good 'E' r]) = Except.ok (records ++ [r]) := by
  induction file generalizing records with
  | nil =>
    simp only [getRecords] at h
    cases h
    rfl
  | cons l ls ih =>
    cases l with
    | good c rc =>
      rcases hc : (c == 'E') with _ | _
      · rw [getRecords_cons_dead hc] at h
        rw [List.cons_append, getRecords_cons_dead hc]
        exact ih h
      · have hcE : c = 'E' := by
          have := (beq_iff_eq (a := c) (b := 'E')).mp hc
          exact this
        subst hcE
        rw [getRecords_cons_live] at h
        rw [List.cons_append, getRecords_cons_live]
        cases hg : getRecords ls with
        | error e => rw [hg] at h; cases h
        | ok rs =>
          rw [hg] at h
          cases h
          rw [ih hg]
          rfl
    | bad c s =>
      rcases hc : (c == 'E') with _ | _
      · -- dead bad line: filtered out
        have hdead : getRecords (Line.bad c s :: (ls ++ [Line.good 'E' r]))
            = getRecords (ls ++ [Line.good 'E' r]) := by
          simp [getRecords, List.filter_cons, Line.tag, hc]
        have hdead2 : getRecords (Line.bad c s :: ls) = getRecords ls := by
          simp [getRecords, List.filter_cons, Line.tag, hc]
        rw [hdead2] at h
        rw [List.cons_append, hdead]
        exact ih h
      · -- live bad line: read fails, contradiction with h
        exfalso
        have hlive : getRecords (Line.bad c s :: ls)
            = ((Line.bad c s :: List.filter (fun l => l.tag == 'E') ls).mapM decodeLine) := by
          simp [getRecords, List.filter_cons, Line.tag, hc]
        rw [hlive, List.mapM_cons] at h
        simp [decodeLine, Bind.bind, Except.bind] at h

/-! ## C2: the delete rewrite -/

/-- C2.  When the read succeeds, `delete(q)` replaces the whole log by the
re-append of every originally-read record, exactly once each and in
original read order, tombstone-tagged (`'D'`) exactly when the record
matches `q` and live (`'E'`) otherwise. -/
theorem delete_rewrites_log (ftf : List Key) (file : List Line) (q : RawQuery)
    (records : List Rec) (h : getRecords file = Except.ok records) :
    deleteOp ftf file q
      = Except.ok (records.map fun r => Line.good (if matchesQuery ftf r q then 'D' else 'E') r) :=
  deleteOp_eq h

/-- Witness for C2: deleting `{name: {$eq: "Bob"}}` from the two-record
log of the spec's scenario re-appends Ann live and Bob tombstoned. -/
theorem delete_rewrites_log_witness :
    deleteOp [] [Line.good 'E' annRec, Line.good 'E' bobRec]
      (RawQuery.mk none none none [("name", Condition.eqC (Value.vStr "Bob".toList))])
      = Except.ok [Line.good 'E' annRec, Line.good 'D' bobRec] :=
  delete_rewrites_log [] [Line.good 'E' annRec, Line.good 'E' bobRec]
    (RawQuery.mk none none none [("name", Condition.eqC (Value.vStr "Bob".toList))])
    [annRec, bobRec] rfl

/-! ## C1: delete followed by find is empty -/

/-- C1.  If `delete(q)` completes on the log, a subsequent `find(q)` — with
any sort/projection options — returns the empty sequence (no concurrent
insert happens between the two calls in this sequential model). -/
theorem delete_then_find_empty (ftf : List Key) (file file' : List Line) (q : RawQuery)
    (opts : QueryOptions) (h : deleteOp ftf file q = Except.ok file') :
    findOp ftf file' q opts = Except.ok [] := by
  cases hr : getRecords file with
  | error e => simp [deleteOp, hr] at h
  | ok records =>
    rw [deleteOp_eq hr] at h
    injection h with h'
    subst h'
    have hg := getRecords_rewrite ftf q records
    have hfilter : ((records.filter fun r => !(matchesQuery ftf r q)).filter
        fun x => matchesQuery ftf x q) = [] := by
      induction records with
      | nil => rfl
      | cons r rs ih =>
        rcases hm : matchesQuery ftf r q with _ | _ <;>
          simp [List.filter_cons, hm, ih]
    obtain ⟨so, pr⟩ := opts
    cases so <;> cases pr <;> simp [findOp, hg, hfilter, sortRecords, project]

/-- Witness for C1: after the delete of the C2 witness, finding
`{name: {$eq: "Bob"}}` returns no records. -/
theorem delete_then_find_empty_witness :
    findOp [] [Line.good 'E' annRec, Line.good 'D' bobRec]
      (RawQuery.mk none none none [("name", Condition.eqC (Value.vStr "Bob".toList))])
      noOptions = Except.ok [] :=
  delete_then_find_empty [] [Line.good 'E' annRec, Line.good 'E' bobRec]
    [Line.good 'E' annRec, Line.good 'D' bobRec]
    (RawQuery.mk none none none [("name", Condition.eqC (Value.vStr "Bob".toList))])
    noOptions rfl

/-! ## C7: insert then find -/

/-- C7 counterexample.  The claim fails when a copy of the record is
already live in the log: inserting `{"name":"Ann","age":30}` into a log
already holding it and then running `find({})` returns the record twice,
not exactly once. -/
theorem insert_find_duplicate :
    findOp [] (insertOp [Line.good 'E' annRec] annRec false) emptyQuery noOptions
      = Except.ok [annRec, annRec]
    ∧ List.count annRec [annRec, annRec] ≠ 1 :=
  ⟨rfl, by decide⟩

/-- C7 amended.  `insert(r)` followed by `find({})` returns the previous
live records with `r` appended: the result contains `r` exactly one more
time than before, hence exactly once when `r` was not already a live
record of the log. -/
theorem insert_then_find (ftf : List Key) (file : List Line) (r : Rec)
    (records : List Rec) (h : getRecords file = Except.ok records) :
    findOp ftf (insertOp file r false) emptyQuery noOptions = Except.ok (records ++ [r])
    ∧ List.count r (records ++ [r]) = List.count r records + 1
    ∧ (r ∉ records → List.count r (records ++ [r]) = 1) := by
  refine ⟨?_, ?_, ?_⟩
  · have hg : getRecords (insertOp file r false) = Except.ok (records ++ [r]) :=
      getRecords_append_live r h
    have hfilter : ((records ++ [r]).filter fun x => matchesQuery ftf x emptyQuery)
        = records ++ [r] :=
      List.filter_eq_self.mpr fun a _ => emptyQuery_matches ftf a
    simp [findOp, hg, hfilter, noOptions]
  · simp [List.count_append]
  · intro hnm
    simp [List.count_append, List.count_eq_zero.mpr hnm]

/-- Witness for C7: inserting Ann's record into the empty log and finding
`{}` yields exactly one copy of it. -/
theorem insert_then_find_witness :
    findOp [] (insertOp [] annRec false) emptyQuery noOptions = Except.ok ([] ++ [annRec])
    ∧ List.count annRec ([] ++ [annRec]) = List.count annRec [] + 1
    ∧ (annRec ∉ ([] : List Rec) → List.count annRec ([] ++ [annRec]) = 1) :=
  insert_then_find [] [] annRec [] rfl

/-! ## Order lemmas for the sort comparator (C9) -/

theorem charEq_of_toNat {c d : Char} (h : c.toNat = d.toNat) : c = d :=
  Char.ext (UInt32.ext h)

theorem ltStr_irrefl (s : Str) : ltStr s s = false := by
  induction s with
  | nil => rfl
  | cons c cs ih => simp [ltStr, ih]

theorem ltStr_asymm : ∀ {a b : Str}, ltStr a b = true → ltStr b a = false := by
  intro a
  induction a with
  | nil =>
    intro b h
    cases b with
    | nil => cases h
    | cons d ds => rfl
  | cons c cs ih =>
    intro b h
    cases b with
    | nil => cases h
    | cons d ds =>
      rw [ltStr] at h ⊢
      by_cases h1 : c.toNat < d.toNat
      · rw [if_neg (by omega), if_pos h1]
      · rw [if_neg h1] at h
        by_cases h2 : d.toNat < c.toNat
        · rw [if_pos h2] at h; cases h
        · rw [if_neg h2] at h
          rw [if_neg h2, if_neg h1]
          exact ih h

theorem ltStr_eq_of_not : ∀ {a b : Str}, ltStr a b = false → ltStr b a = false → a = b := by
  intro a
  induction a with
  | nil =>
    intro b h1 _
    cases b with
    | nil => rfl
    | cons d ds => cases h1
  | cons c cs ih =>
    intro b h1 h2
    cases b with
    | nil => cases h2
    | cons d ds =>
      rw [ltStr] at h1 h2
      by_cases hcd : c.toNat < d.toNat
      · rw [if_pos hcd] at h1; cases h1
      · by_cases hdc : d.toNat < c.toNat
        · rw [if_pos hdc] at h2; cases h2
        · rw [if_neg hcd, if_neg hdc] at h1
          rw [if_neg hdc, if_neg hcd] at h2
          have hc : c = d := charEq_of_toNat (by omega)
          rw [hc, ih h1 h2]

theorem ltStr_trans : ∀ {a b c : Str}, ltStr a b = true → ltStr b c = true → ltStr a c = true := by
  intro a
  induction a with
  | nil =>
    intro b c h1 h2
    cases b with
    | nil => cases h1
    | cons e es =>
      cases c with
      | nil => cases h2
      | cons f fs => rfl
  | cons x xs ih =>
    intro b c h1 h2
    cases b with
    | nil => cases h1
    | cons e es =>
      cases c with
      | nil => cases h2
      | cons f fs =>
        rw [ltStr] at h1 h2 ⊢
        by_cases hxe : x.toNat < e.toNat
        · by_cases hef : e.toNat < f.toNat
          · rw [if_pos (by omega)]
          · rw [if_neg hef] at h2
            by_cases hfe : f.toNat < e.toNat
            · rw [if_pos hfe] at h2; cases h2
            · rw [if_pos (by omega)]
        · rw [if_neg hxe] at h1
          by_cases hex : e.toNat < x.toNat
          · rw [if_pos hex] at h1; cases h1
          · rw [if_neg hex] at h1
            by_cases hef : e.toNat < f.toNat
            · rw [if_pos (by omega)]
            · rw [if_neg hef] at h2
              by_cases hfe : f.toNat < e.toNat
              · rw [if_pos hfe] at h2; cases h2
              · rw [if_neg hfe] at h2
                rw [if_neg (by omega), if_neg (by omega)]
                exact ih h1 h2

theorem jsLt_irrefl (v : Value) : jsLt v v = false := by
  cases v with
  | vInt n => simp [jsLt]
  | vStr s => simp [jsLt, ltStr_irrefl]
  | vUndef => rfl

theorem jsLt_asymm {x y : Value} (h : jsLt x y = true) : jsLt y x = false := by
  cases x <;> cases y <;> simp_all [jsLt]
  · omega
  · exact ltStr_asymm h

theorem jsLt_trans {x y z : Value} (h1 : jsLt x y = true) (h2 : jsLt y z = true) :
    jsLt x z = true := by
  cases x <;> cases y <;> cases z <;> simp_all [jsLt]
  · omega
  · exact ltStr_trans h1 h2

theorem sameKind_eq_of_not_lt {x y : Value} (hk : sameKind x y = true)
    (h1 : jsLt x y = false) (h2 : jsLt y x = false) : x = y := by
  cases x <;> cases y <;> simp_all [sameKind, jsLt]
  · omega
  · exact ltStr_eq_of_not h1 h2

theorem cmpRecords_cons (k : Key) (d : Int) (rest : List (Key × Int)) (a b : Rec) :
    cmpRecords ((k, d) :: rest) a b
      = if jsLt (getField a k) (getField b k) = true then -d
        else if jsLt (getField b k) (getField a k) = true then d
        else cmpRecords rest a b := rfl

theorem cmpRecords_neg (so : List (Key × Int)) (a b : Rec) :
    cmpRecords so b a = -cmpRecords so a b := by
  induction so with
  | nil => simp [cmpRecords]
  | cons p rest ih =>
    obtain ⟨k, d⟩ := p
    rcases hab : jsLt (getField a k) (getField b k) with _ | _ <;>
      rcases hba : jsLt (getField b k) (getField a k) with _ | _
    · simp [cmpRecords_cons, hab, hba, ih]
    · simp [cmpRecords_cons, hab, hba]
    · simp [cmpRecords_cons, hab, hba]
    · rw [jsLt_asymm hab] at hba; cases hba

theorem cmpRecords_trans (so : List (Key × Int)) (a b c : Rec)
    (hab : ∀ p ∈ so, sameKind (getField a p.1) (getField b p.1) = true)
    (hbc : ∀ p ∈ so, sameKind (getField b p.1) (getField c p.1) = true)
    (hd : validDirs so) :
    cmpRecords so a b ≤ 0 → cmpRecords so b c ≤ 0 → cmpRecords so a c ≤ 0 := by
  induction so with
  | nil => intro _ _; simp [cmpRecords]
  | cons p rest ih =>
    obtain ⟨k, d⟩ := p
    intro h1 h2
    have hkab : sameKind (getField a k) (getField b k) = true :=
      hab (k, d) (List.mem_cons_self _ _)
    have hkbc : sameKind (getField b k) (getField c k) = true :=
      hbc (k, d) (List.mem_cons_self _ _)
    have hdk : d = 1 ∨ d = -1 := hd (k, d) (List.mem_cons_self _ _)
    have ihr := ih (fun p hp => hab p (List.mem_cons_of_mem _ hp))
      (fun p hp => hbc p (List.mem_cons_of_mem _ hp))
      (fun p hp => hd p (List.mem_cons_of_mem _ hp))
    rcases hxy : jsLt (getField a k) (getField b k) with _ | _ <;>
      rcases hyx : jsLt (getField b k) (getField a k) with _ | _
    · -- a, b equal at k
      have he : getField a k = getField b k := sameKind_eq_of_not_lt hkab hxy hyx
      simp only [cmpRecords_cons, hxy, hyx] at h1
      simp only [Bool.false_eq_true, if_false] at h1
      rcases hyz : jsLt (getField b k) (getField c k) with _ | _ <;>
        rcases hzy : jsLt (getField c k) (getField b k) with _ | _
      · -- b, c equal at k too: all three heads tie, recurse
        simp only [cmpRecords_cons, hyz, hzy] at h2
        simp only [Bool.false_eq_true, if_false] at h2
        have h3 : jsLt (getField a k) (getField c k) = false := by rw [he]; exact hyz
        have h4 : jsLt (getField c k) (getField a k) = false := by rw [he]; exact hzy
        simp only [cmpRecords_cons, h3, h4, Bool.false_eq_true, if_false]
        exact ihr h1 h2
      · -- c < b at k
        simp only [cmpRecords_cons, hyz, hzy, Bool.false_eq_true, if_false, if_true] at h2
        have h3 : jsLt (getField a k) (getField c k) = false := by rw [he]; exact hyz
        have h4 : jsLt (getField c k) (getField a k) = true := by rw [he]; exact hzy
        simp only [cmpRecords_cons, h3, h4, Bool.false_eq_true, if_false, if_true]
        exact h2
      · -- b < c at k
        simp only [cmpRecords_cons, hyz, if_true] at h2
        have h3 : jsLt (getField a k) (getField c k) = true := by rw [he]; exact hyz
        simp only [cmpRecords_cons, h3, if_true]
        exact h2
      · rw [jsLt_asymm hyz] at hzy; cases hzy
    · -- b < a at k: head of (a, b) is d
      simp only [cmpRecords_cons, hxy, hyx, Bool.false_eq_true, if_false, if_true] at h1
      rcases hyz : jsLt (getField b k) (getField c k) with _ | _ <;>
        rcases hzy : jsLt (getField c k) (getField b k) with _ | _
      · -- b, c equal at k: c < a at k
        have he2 : getField b k = getField c k := sameKind_eq_of_not_lt hkbc hyz hzy
        have h4 : jsLt (getField c k) (getField a k) = true := by rw [← he2]; exact hyx
        have h3 : jsLt (getField a k) (getField c k) = false := jsLt_asymm h4
        simp only [cmpRecords_cons, h3, h4, Bool.false_eq_true, if_false, if_true]
        exact h1
      · -- c < b < a at k
        have h4 : jsLt (getField c k) (getField a k) = true := jsLt_trans hzy hyx
        have h3 : jsLt (getField a k) (getField c k) = false := jsLt_asymm h4
        simp only [cmpRecords_cons, h3, h4, Bool.false_eq_true, if_false, if_true]
        exact h1
      · -- b < c at k: head of (b, c) is -d, contradicting d ≤ 0 for d = ±1
        simp only [cmpRecords_cons, hyz, if_true] at h2
        omega
      · rw [jsLt_asymm hyz] at hzy; cases hzy
    · -- a < b at k: head of (a, b) is -d
      simp only [cmpRecords_cons, hxy, if_true] at h1
      rcases hyz : jsLt (getField b k) (getField c k) with _ | _ <;>
        rcases hzy : jsLt (getField c k) (getField b k) with _ | _
      · -- b, c equal at k: a < c at k
        have he2 : getField b k = getField c k := sameKind_eq_of_not_lt hkbc hyz hzy
        have h3 : jsLt (getField a k) (getField c k) = true := by rw [← he2]; exact hxy
        simp only [cmpRecords_cons, h3, if_true]
        exact h1
      · -- c < b at k: head of (b, c) is d, contradicting -d ≤ 0 for d = ±1
        simp only [cmpRecords_cons, hyz, hzy, Bool.false_eq_true, if_false, if_true] at h2
        omega
      · -- a < b < c at k
        have h3 : jsLt (getField a k) (getField c k) = true := jsLt_trans hxy hyz
        simp only [cmpRecords_cons, h3, if_true]
        exact h1
      · rw [jsLt_asymm hyz] at hzy; cases hzy
    · rw [jsLt_asymm hxy] at hyx; cases hyx

theorem cmpRecords_firstKey (a b : Rec) :
    ∀ (pre : List (Key × Int)) (k : Key) (d : Int) (post : List (Key × Int)),
      (∀ p ∈ pre, differAt a b p.1 = false) → differAt a b k = true →
      cmpRecords (pre ++ (k, d) :: post) a b
        = if jsLt (getField a k) (getField b k) then -d else d := by
  intro pre
  induction pre with
  | nil =>
    intro k d post _ hk
    rcases h1 : jsLt (getField a k) (getField b k) with _ | _
    · have h2 : jsLt (getField b k) (getField a k) = true := by
        simpa [differAt, h1] using hk
      simp [cmpRecords_cons, h1, h2]
    · simp [cmpRecords_cons, h1]
  | cons p pre ih =>
    intro k d post hpre hk
    obtain ⟨pk, pd⟩ := p
    have hp : differAt a b pk = false := hpre (pk, pd) (List.mem_cons_self _ _)
    have h12 := Bool.or_eq_false_iff.mp (by simpa [differAt] using hp)
    rw [List.cons_append]
    simp only [cmpRecords_cons, h12.1, h12.2, Bool.false_eq_true, if_false]
    exact ih k d post (fun q hq => hpre q (List.mem_cons_of_mem _ hq)) hk

theorem sortInsert_decomp (so : List (Key × Int)) (x : Rec) :
    ∀ l : List Rec, ∃ l1 l2, l = l1 ++ l2 ∧ sortInsert so x l = l1 ++ x :: l2
      ∧ ∀ y ∈ l1, cmpRecords so y x < 0 := by
  intro l
  induction l with
  | nil => exact ⟨[], [], rfl, rfl, by simp⟩
  | cons y ys ih =>
    by_cases h : cmpRecords so y x < 0
    · obtain ⟨l1, l2, he, hs, hlt⟩ := ih
      refine ⟨y :: l1, l2, by simp [he], by simp [sortInsert, h, hs], ?_⟩
      intro z hz
      rcases List.mem_cons.mp hz with rfl | hz'
      · exact h
      · exact hlt z hz'
    · exact ⟨[], y :: ys, rfl, by simp [sortInsert, h], by simp⟩

theorem mem_sortInsert {so : List (Key × Int)} {x z : Rec} {l : List Rec} :
    z ∈ sortInsert so x l ↔ z = x ∨ z ∈ l := by
  obtain ⟨l1, l2, he, hs, _⟩ := sortInsert_decomp so x l
  rw [hs, he]
  simp [List.mem_append, List.mem_cons]
  tauto

theorem sortInsert_perm (so : List (Key × Int)) (x : Rec) (l : List Rec) :
    (sortInsert so x l).Perm (x :: l) := by
  obtain ⟨l1, l2, he, hs, _⟩ := sortInsert_decomp so x l
  rw [hs, he]
  exact List.perm_middle

theorem sortRecords_perm (so : List (Key × Int)) (l : List Rec) :
    (sortRecords so l).Perm l := by
  induction l with
  | nil => exact List.Perm.refl _
  | cons x xs ih =>
    exact (sortInsert_perm so x (sortRecords so xs)).trans (List.Perm.cons x ih)

theorem sortInsert_sorted {so : List (Key × Int)} {x : Rec} {l : List Rec}
    (htrans : ∀ a ∈ x :: l, ∀ b ∈ x :: l, ∀ c ∈ x :: l,
      cmpRecords so a b ≤ 0 → cmpRecords so b c ≤ 0 → cmpRecords so a c ≤ 0)
    (hs : l.Pairwise fun a b => cmpRecords so a b ≤ 0) :
    (sortInsert so x l).Pairwise fun a b => cmpRecords so a b ≤ 0 := by
  induction l with
  | nil => simp [sortInsert]
  | cons y ys ih =>
    rcases List.pairwise_cons.mp hs with ⟨hy, hys⟩
    by_cases h : cmpRecords so y x < 0
    · rw [sortInsert, if_pos h]
      refine List.pairwise_cons.mpr ⟨?_, ?_⟩
      · intro z hz
        rcases mem_sortInsert.mp hz with rfl | hz'
        · exact le_of_lt h
        · exact hy z hz'
      · refine ih ?_ hys
        intro a ha b hb c hc
        have hsub : ∀ t, t ∈ x :: ys → t ∈ x :: y :: ys := by
          intro t ht
          rcases List.mem_cons.mp ht with rfl | ht'
          · exact List.mem_cons_self _ _
          · exact List.mem_cons_of_mem _ (List.mem_cons_of_mem _ ht')
        exact htrans a (hsub a ha) b (hsub b hb) c (hsub c hc)
    · rw [sortInsert, if_neg h]
      refine List.pairwise_cons.mpr ⟨?_, hs⟩
      intro z hz
      have hxy : cmpRecords so x y ≤ 0 := by
        have := cmpRecords_neg so x y
        omega
      rcases List.mem_cons.mp hz with rfl | hz'
      · exact hxy
      · refine htrans x (List.mem_cons_self _ _) y
          (List.mem_cons_of_mem _ (List.mem_cons_self _ _)) z
          (List.mem_cons_of_mem _ (List.mem_cons_of_mem _ hz')) hxy (hy z hz')

theorem sortRecords_sorted (so : List (Key × Int)) (l : List Rec)
    (htrans : ∀ a ∈ l, ∀ b ∈ l, ∀ c ∈ l,
      cmpRecords so a b ≤ 0 → cmpRecords so b c ≤ 0 → cmpRecords so a c ≤ 0) :
    (sortRecords so l).Pairwise fun a b => cmpRecords so a b ≤ 0 := by
  induction l with
  | nil => simp [sortRecords]
  | cons x xs ih =>
    rw [sortRecords]
    have hmem : ∀ t, t ∈ x :: sortRecords so xs → t ∈ x :: xs := by
      intro t ht
      rcases List.mem_cons.mp ht with rfl | ht'
      · exact List.mem_cons_self _ _
      · exact List.mem_cons_of_mem _ ((sortRecords_perm so xs).mem_iff.mp ht')
    refine sortInsert_sorted ?_ ?_
    · intro a ha b hb c hc
      exact htrans a (hmem a ha) b (hmem b hb) c (hmem c hc)
    · refine ih ?_
      intro a ha b hb c hc
      exact htrans a (List.mem_cons_of_mem _ ha) b (List.mem_cons_of_mem _ hb)
        c (List.mem_cons_of_mem _ hc)

theorem sortInsert_sublist (so : List (Key × Int)) (x : Rec) {s t : List Rec}
    (h : List.Sublist s t) : List.Sublist s (sortInsert so x t) := by
  obtain ⟨l1, l2, he, hs, _⟩ := sortInsert_decomp so x t
  rw [hs]
  refine h.trans ?_
  rw [he]
  exact List.Sublist.append_left (List.sublist_cons_self x l2) l1

theorem sortRecords_stable (so : List (Key × Int)) {a b : Rec} {l : List Rec}
    (hab : cmpRecords so a b = 0) (h : List.Sublist [a, b] l) :
    List.Sublist [a, b] (sortRecords so l) := by
  induction l with
  | nil => cases h
  | cons x xs ih =>
    rw [sortRecords]
    cases h with
    | cons _ h' => exact sortInsert_sublist so x (ih h')
    | cons₂ _ h' =>
      have hb : b ∈ sortRecords so xs :=
        (sortRecords_perm so xs).mem_iff.mpr (List.singleton_sublist.mp h')
      obtain ⟨l1, l2, he, hs, hlt⟩ := sortInsert_decomp so a (sortRecords so xs)
      rw [hs]
      have hbl2 : b ∈ l2 := by
        rcases List.mem_append.mp (he ▸ hb) with h1 | h2
        · exfalso
          have hba := hlt b h1
          have hneg := cmpRecords_neg so a b
          omega
        · exact h2
      have h1 : List.Sublist [a, b] (a :: l2) :=
        List.Sublist.cons₂ a (List.singleton_sublist.mpr hbl2)
      exact h1.trans (List.sublist_append_right l1 (a :: l2))

/-! ## C9: `sort` is a stable multi-key sort -/

/-- C9.  Over any record list whose sort-key values are type-homogeneous
(the spec declares cross-type comparison undefined) and any sort option
with directions `1`/`-1`, `sort` returns a permutation of its input that
is ordered by the multi-key comparator; two records that compare equal on
all listed keys keep their relative input order (stability); and the
comparator itself consults the keys in mapping-insertion order, the first
key on which the two records differ deciding the outcome — `-direction`
when the left record is below on that key, `direction` when above. -/
theorem sort_stable_multikey (so : List (Key × Int)) (rs : List Rec)
    (hdirs : validDirs so) (hhom : homogKeys so rs) :
    (sortRecords so rs).Perm rs
    ∧ ((sortRecords so rs).Pairwise fun a b => cmpRecords so a b ≤ 0)
    ∧ (∀ a b, cmpRecords so a b = 0 → List.Sublist [a, b] rs →
        List.Sublist [a, b] (sortRecords so rs))
    ∧ (∀ a b pre k d post, so = pre ++ (k, d) :: post →
        (∀ p ∈ pre, differAt a b p.1 = false) → differAt a b k = true →
        cmpRecords so a b = if jsLt (getField a k) (getField b k) then -d else d) := by
  refine ⟨sortRecords_perm so rs, ?_, ?_, ?_⟩
  · refine sortRecords_sorted so rs ?_
    intro a ha b hb c hc
    exact cmpRecords_trans so a b c
      (fun p hp => hhom p hp a ha b hb)
      (fun p hp => hhom p hp b hb c hc)
      hdirs
  · intro a b hab h
    exact sortRecords_stable so hab h
  · intro a b pre k d post hso hpre hk
    rw [hso]
    exact cmpRecords_firstKey a b pre k d post hpre hk

/-- Witness for C9: sorting the spec's two-record scenario by ascending
age puts Bob (25) before Ann (30). -/
theorem sort_stable_multikey_witness :
    (sortRecords [("age", 1)] [annRec, bobRec]).Perm [annRec, bobRec]
    ∧ ((sortRecords [("age", 1)] [annRec, bobRec]).Pairwise
        fun a b => cmpRecords [("age", 1)] a b ≤ 0)
    ∧ (∀ a b, cmpRecords [("age", 1)] a b = 0 → List.Sublist [a, b] [annRec, bobRec] →
        List.Sublist [a, b] (sortRecords [("age", 1)] [annRec, bobRec]))
    ∧ (∀ a b pre k d post, [("age", (1 : Int))] = pre ++ (k, d) :: post →
        (∀ p ∈ pre, differAt a b p.1 = false) → differAt a b k = true →
        cmpRecords [("age", 1)] a b = if jsLt (getField a k) (getField b k) then -d else d) :=
  sort_stable_multikey [("age", 1)] [annRec, bobRec]
    (by unfold validDirs; decide) (by unfold homogKeys; decide)
